import Mathlib

/-!
Verification of the overlay / chunked-value-store core of py-ipv8.

The definitions below are a shallow embedding of the code:
* `on_packet`, `claim_global_time`, `update_global_time` embed `overlay.py`
  (exceptions become `Except`, the abstract methods become function
  parameters, the Lamport counter of `my_peer` becomes an explicit `Nat`).
* `publish_to_DHT` embeds the chunked publish helper of
  `ipv8/test/REST/dht/test_dht_endpoint.py`: it packs the version with
  struct.pack("H", n) (two little-endian bytes, failing outside 0..65535),
  slices the data in steps of MAX_ENTRY_SIZE - 3 and stores
  version ++ slice for each slice.  MAX_ENTRY_SIZE is imported by the test
  from code outside the given sources, so it is kept as a parameter M.
* `put`, `latestOf` / `fetchLatest` and `publishIfChanged` are the store
  primitives and the coordinator whose implementation is not among the
  given sources; they are modelled from the spec (sections 4.3 and 4.4),
  with the chunk header taken to be the 2-byte packed version that the
  publish code actually writes (the spec marks the exact header layout as
  an unconfirmed inference in its design notes).
-/

/-- A value, key or packet is a byte string, embedded as a list of Nat. -/
abbrev Bytes := List Nat

/-- The key-addressed store: per key, the ordered list of raw entries. -/
def Store := Bytes → List Bytes

/-- The store with no entries under any key. -/
def emptyStore : Store := fun _ => []

/-- Errors of the embedded DHT code paths. -/
inductive DHTError where
  | structError
  | rangeStepZero
  | entryTooLarge
deriving DecidableEq

/-- Little-endian two-byte encoding used by struct.pack("H", n). -/
def packH (n : Nat) : Bytes := [n % 256, n / 256]

/-- struct.pack("H", n): two little-endian bytes, raising struct.error when
n is outside 0..65535. -/
def structPackH (n : Nat) : Except DHTError Bytes :=
  if n < 65536 then Except.ok (packH n) else Except.error DHTError.structError

/-- Python slicing loop `for i in range(0, len data, s): data[i:i+s]`,
with an explicit fuel argument (the list length bounds the iteration
count) so that the definition is structurally recursive and computable
by the kernel. -/
def chunksAux (s : Nat) : Nat → Bytes → List Bytes
  | _, [] => []
  | 0, _ => []
  | fuel + 1, data => data.take s :: chunksAux s fuel (data.drop s)

/-- The list of consecutive slices of size s of data (final slice shorter
when the length is not a multiple of s); empty when s = 0, matching the
empty range produced by a non-positive Python slice step. -/
def chunkList (s : Nat) (data : Bytes) : List Bytes :=
  if s = 0 then [] else chunksAux s data.length data

/-- Modelled from the spec: ChunkedValueStore.put (spec 4.3, not among the
given sources).  Fails with EntryTooLarge when the raw entry exceeds
MAX_ENTRY_SIZE, otherwise appends the entry to the ordered list for the
key. -/
def put (M : Nat) (st : Store) (key : Bytes) (entry : Bytes) : Except DHTError Store :=
  if M < entry.length then Except.error DHTError.entryTooLarge
  else Except.ok (fun k => if k = key then st k ++ [entry] else st k)

/-- Sequentially store a list of raw entries, stopping at the first error,
as the yielding loop of publish_to_DHT does. -/
def putChunks (M : Nat) (key : Bytes) : Store → List Bytes → Except DHTError Store
  | st, [] => Except.ok st
  | st, e :: es =>
    match put M st key e with
    | Except.error err => Except.error err
    | Except.ok st2 => putChunks M key st2 es

/-- publish_to_DHT of the test helper: pack the version with
struct.pack("H", ·), then for i in range(0, len(data), M - 3) store
version ++ data[i:i+M-3] under the key.  A step of exactly zero
(M = 3) raises ValueError in range; a negative step (M < 3) yields an
empty range, which the Nat truncation of M - 3 to 0 reproduces. -/
def publish_to_DHT (M : Nat) (st : Store) (key : Bytes) (data : Bytes)
    (numeric_version : Nat) : Except DHTError Store :=
  match structPackH numeric_version with
  | Except.error e => Except.error e
  | Except.ok version =>
    if M = 3 then Except.error DHTError.rangeStepZero
    else putChunks M key st ((chunkList (M - 3) data).map fun c => version ++ c)

/-- The raw entries one publish call appends under its key. -/
def entriesOf (M : Nat) (n : Nat) (data : Bytes) : List Bytes :=
  (chunkList (M - 3) data).map fun c => packH n ++ c

/-- The store with a list of raw entries appended under one key. -/
def storeAppend (st : Store) (key : Bytes) (es : List Bytes) : Store :=
  fun k => if k = key then st k ++ es else st k

/-- Parse the header of a stored raw entry: the first two bytes are the
little-endian version, the rest is the slice payload; entries shorter
than the header are unparseable and discarded by reconstruction. -/
def parseEntry : Bytes → Option (Nat × Bytes)
  | b0 :: b1 :: rest => some (b0 + 256 * b1, rest)
  | _ => none

/-- Modelled from the spec: the reconstruction protocol of
PublishCoordinator.fetchLatest (spec 4.4, not among the given sources).
Parse every entry fail-soft, group by version preserving storage order,
select the numerically greatest version and concatenate that group's
payloads; absent when nothing parseable is stored.  The header is the
2-byte packed version that the publish code in the sources writes. -/
def latestOf (es : List Bytes) : Option Bytes :=
  if (es.filterMap parseEntry) = [] then none
  else
    some ((((es.filterMap parseEntry).filter fun q =>
      q.1 == ((es.filterMap parseEntry).map Prod.fst).foldl Nat.max 0).map Prod.snd).flatten)

/-- Modelled from the spec: fetchLatest reads all raw entries for the key
and reconstructs the latest generation. -/
def fetchLatest (st : Store) (key : Bytes) : Option Bytes :=
  latestOf (st key)

/-- Modelled from the spec: the idempotent-publish guard publishIfChanged
(spec 4.4, not among the given sources): when the reconstructed latest
value is byte-identical to the new value, return without writing; else
publish at the caller-supplied next version. -/
def publishIfChanged (M : Nat) (st : Store) (key : Bytes) (newValue : Bytes)
    (nextVersion : Nat) : Except DHTError Store :=
  if fetchLatest st key = some newValue then Except.ok st
  else publish_to_DHT M st key newValue nextVersion

/-- Observation helper: the raw entry list under a key after a fallible
store operation. -/
def storeEntries (r : Except DHTError Store) (key : Bytes) : Except DHTError (List Bytes) :=
  r.map fun st => st key

/-- Observation helper: the reconstructed latest value after a fallible
store operation. -/
def fetchAfter (r : Except DHTError Store) (key : Bytes) : Except DHTError (Option Bytes) :=
  r.map fun st => fetchLatest st key

/-- Sequencing helper: a second publish after a fallible first one, the
first failure propagating as the raised exception would. -/
def thenPublish (r : Except DHTError Store) (M : Nat) (key : Bytes) (data : Bytes)
    (n : Nat) : Except DHTError Store :=
  match r with
  | Except.error e => Except.error e
  | Except.ok st => publish_to_DHT M st key data n

/-- Errors of the packet ingestion path of overlay.py. -/
inductive PacketError where
  | malformedPacket
  | invalidKey
deriving DecidableEq

/-- Overlay.on_packet: split the data into identity bytes and remainder
via the abstract split_key_data, parse the identity bytes via the crypto
capability, and dispatch the (peer, payload) pair.  The body contains no
exception handler, so a failure of either callee propagates; the abstract
callees are function parameters and the dispatched pair is returned. -/
def on_packet (split_key_data : Bytes → Except PacketError (Bytes × Bytes))
    (key_from_public_bin : Bytes → Except PacketError Nat)
    (packet : Nat × Bytes) : Except PacketError ((Nat × Nat) × Bytes) :=
  match packet with
  | (source_address, data) =>
    match split_key_data data with
    | Except.error e => Except.error e
    | Except.ok (key_bin, d2) =>
      match key_from_public_bin key_bin with
      | Except.error e => Except.error e
      | Except.ok key => Except.ok ((key, source_address), d2)

/-- A split rule that rejects every packet. -/
def rejectSplit : Bytes → Except PacketError (Bytes × Bytes) :=
  fun _ => Except.error PacketError.malformedPacket

/-- A split rule taking the first byte as the identity bytes. -/
def headSplit : Bytes → Except PacketError (Bytes × Bytes)
  | [] => Except.error PacketError.malformedPacket
  | k :: rest => Except.ok ([k], rest)

/-- A key-parsing capability accepting everything. -/
def acceptKey : Bytes → Except PacketError Nat := fun _ => Except.ok 0

/-- A key-parsing capability rejecting everything. -/
def rejectKey : Bytes → Except PacketError Nat :=
  fun _ => Except.error PacketError.invalidKey

/-- Modelled from the spec: Peer.update_clock (peer.py is not among the
given sources); LogicalClock.observe sets counter = max(counter, remote). -/
def update_clock (c x : Nat) : Nat := max c x

/-- Overlay.update_global_time: raise the clock to the given value when it
is strictly larger, otherwise leave it unchanged. -/
def update_global_time (c x : Nat) : Nat :=
  if c < x then update_clock c x else c

/-- Overlay.claim_global_time: update the clock with current + 1, then
return the (new) global time; result is (new clock state, returned value). -/
def claim_global_time (c : Nat) : Nat × Nat :=
  (update_global_time c (c + 1), update_global_time c (c + 1))

/-- One abstract clock-touching operation of the overlay. -/
inductive ClockOp where
  | claimOp
  | updateOp (x : Nat)

/-- The clock state after one operation. -/
def stepClock (c : Nat) : ClockOp → Nat
  | ClockOp.claimOp => (claim_global_time c).1
  | ClockOp.updateOp x => update_global_time c x

/-! ## Helper lemmas: chunking -/

lemma chunksAux_nil (s fuel : Nat) : chunksAux s fuel [] = [] := by
  cases fuel <;> rfl

lemma chunksAux_succ (s fuel : Nat) (data : Bytes) (hd : data ≠ []) :
    chunksAux s (fuel + 1) data = data.take s :: chunksAux s fuel (data.drop s) := by
  cases data with
  | nil => exact absurd rfl hd
  | cons a l => rfl

lemma chunkList_nil (s : Nat) : chunkList s [] = [] := by
  by_cases hs : s = 0 <;> simp [chunkList, hs, chunksAux_nil]

lemma chunksAux_flatten (s : Nat) (hs : s ≠ 0) :
    ∀ fuel data, List.length data ≤ fuel → (chunksAux s fuel data).flatten = data := by
  intro fuel
  induction fuel with
  | zero =>
    intro data h
    have hd : data = [] := List.eq_nil_of_length_eq_zero (Nat.le_zero.mp h)
    subst hd
    simp [chunksAux_nil]
  | succ fuel ih =>
    intro data h
    by_cases hd : data = []
    · subst hd; simp [chunksAux_nil]
    · rw [chunksAux_succ s fuel data hd, List.flatten_cons,
        ih (data.drop s) (by simp only [List.length_drop]; omega)]
      exact List.take_append_drop s data

lemma chunkList_flatten (s : Nat) (hs : s ≠ 0) (data : Bytes) :
    (chunkList s data).flatten = data := by
  unfold chunkList
  rw [if_neg hs]
  exact chunksAux_flatten s hs data.length data (Nat.le_refl _)

lemma chunksAux_mem (s : Nat) :
    ∀ fuel data c, c ∈ chunksAux s fuel data → c.length ≤ s := by
  intro fuel
  induction fuel with
  | zero =>
    intro data c hc
    cases data <;> simp [chunksAux_nil, chunksAux] at hc
  | succ fuel ih =>
    intro data c hc
    by_cases hd : data = []
    · subst hd; simp [chunksAux_nil] at hc
    · rw [chunksAux_succ s fuel data hd] at hc
      rcases List.mem_cons.mp hc with h | h
      · subst h; simp [List.length_take]
      · exact ih (data.drop s) c h

lemma chunkList_mem (s : Nat) (data : Bytes) (c : Bytes) (hc : c ∈ chunkList s data) :
    c.length ≤ s := by
  unfold chunkList at hc
  by_cases hs : s = 0
  · rw [if_pos hs] at hc; simp at hc
  · rw [if_neg hs] at hc; exact chunksAux_mem s data.length data c hc

lemma chunkList_ne_nil (s : Nat) (data : Bytes) (hs : s ≠ 0) (hd : data ≠ []) :
    chunkList s data ≠ [] := by
  unfold chunkList
  rw [if_neg hs]
  cases data with
  | nil => exact absurd rfl hd
  | cons a l =>
    simp only [List.length_cons]
    rw [chunksAux_succ s l.length (a :: l) hd]
    exact List.cons_ne_nil _ _

lemma chunksAux_length (s : Nat) (hs : s ≠ 0) :
    ∀ fuel data, List.length data ≤ fuel →
      (chunksAux s fuel data).length = (data.length + s - 1) / s := by
  intro fuel
  induction fuel with
  | zero =>
    intro data h
    have hd : data = [] := List.eq_nil_of_length_eq_zero (Nat.le_zero.mp h)
    subst hd
    simp [chunksAux_nil, Nat.div_eq_of_lt (by omega : s - 1 < s)]
  | succ fuel ih =>
    intro data h
    by_cases hd : data = []
    · subst hd
      simp [chunksAux_nil, Nat.div_eq_of_lt (by omega : s - 1 < s)]
    · rw [chunksAux_succ s fuel data hd, List.length_cons,
        ih (data.drop s) (by simp only [List.length_drop]; omega)]
      simp only [List.length_drop]
      have hL : 1 ≤ data.length := by
        cases data with
        | nil => exact absurd rfl hd
        | cons a l => simp
      by_cases hcase : data.length ≤ s
      · have h1 : data.length - s = 0 := by omega
        rw [h1]
        have h2 : (0 + s - 1) / s = 0 := Nat.div_eq_of_lt (by omega)
        have h3 : (data.length + s - 1) / s = 1 := by
          have : data.length + s - 1 = (data.length - 1) + s := by omega
          rw [this, Nat.add_div_right _ (by omega : 0 < s),
            Nat.div_eq_of_lt (by omega : data.length - 1 < s)]
        omega
      · have h1 : data.length + s - 1 = (data.length - s + s - 1) + s := by omega
        rw [h1, Nat.add_div_right _ (by omega : 0 < s)]

lemma chunkList_length (s : Nat) (hs : s ≠ 0) (data : Bytes) :
    (chunkList s data).length = (data.length + s - 1) / s := by
  unfold chunkList
  rw [if_neg hs]
  exact chunksAux_length s hs data.length data (Nat.le_refl _)

/-! ## Helper lemmas: the write path -/

lemma storeAppend_nil (st : Store) (key : Bytes) : storeAppend st key [] = st := by
  funext k
  by_cases hk : k = key <;> simp [storeAppend, hk]

lemma storeAppend_key (st : Store) (key : Bytes) (es : List Bytes) :
    storeAppend st key es key = st key ++ es := by
  simp [storeAppend]

lemma storeAppend_append (st : Store) (key : Bytes) (es1 es2 : List Bytes) :
    storeAppend (storeAppend st key es1) key es2 = storeAppend st key (es1 ++ es2) := by
  funext k
  by_cases hk : k = key <;> simp [storeAppend, hk]

lemma putChunks_ok (M : Nat) (key : Bytes) :
    ∀ (es : List Bytes) (st : Store), (∀ e ∈ es, e.length ≤ M) →
      putChunks M key st es = Except.ok (storeAppend st key es) := by
  intro es
  induction es with
  | nil =>
    intro st h
    simp [putChunks, storeAppend_nil]
  | cons e es ih =>
    intro st h
    have he : e.length ≤ M := h e (List.mem_cons_self e es)
    have hput : put M st key e =
        Except.ok (fun k => if k = key then st k ++ [e] else st k) := by
      unfold put
      rw [if_neg (Nat.not_lt.mpr he)]
    simp only [putChunks, hput]
    rw [ih _ (fun x hx => h x (List.mem_cons_of_mem e hx))]
    have : storeAppend (fun k => if k = key then st k ++ [e] else st k) key es =
        storeAppend st key (e :: es) := by
      funext k
      by_cases hk : k = key <;> simp [storeAppend, hk]
    rw [this]

lemma entriesOf_bound (M n : Nat) (data : Bytes) (h4 : 4 ≤ M) :
    ∀ e ∈ entriesOf M n data, e.length ≤ M := by
  intro e he
  unfold entriesOf at he
  rcases List.mem_map.mp he with ⟨c, hc, rfl⟩
  have hlen := chunkList_mem (M - 3) data c hc
  simp only [List.length_append, packH, List.length_cons, List.length_nil]
  omega

lemma publish_eval (M n : Nat) (st : Store) (key data : Bytes)
    (h4 : 4 ≤ M) (hn : n < 65536) :
    publish_to_DHT M st key data n = Except.ok (storeAppend st key (entriesOf M n data)) := by
  have hpack : structPackH n = Except.ok (packH n) := by
    unfold structPackH
    rw [if_pos hn]
  unfold publish_to_DHT
  rw [hpack]
  simp only []
  rw [if_neg (by omega : ¬ M = 3)]
  exact putChunks_ok M key (entriesOf M n data) st (entriesOf_bound M n data h4)

/-! ## Helper lemmas: reconstruction -/

lemma parseEntry_packH (n : Nat) (c : Bytes) : parseEntry (packH n ++ c) = some (n, c) := by
  show some (n % 256 + 256 * (n / 256), c) = some (n, c)
  rw [Nat.mod_add_div]

lemma filterMap_parse (n : Nat) (cs : List Bytes) :
    ((cs.map fun c => packH n ++ c).filterMap parseEntry) = cs.map fun c => (n, c) := by
  induction cs with
  | nil => rfl
  | cons c cs ih =>
    simp only [List.map_cons, List.filterMap_cons, parseEntry_packH, ih]

lemma map_fst_mapconst (n : Nat) (cs : List Bytes) :
    ((cs.map fun c => ((n : Nat), c)).map Prod.fst) = cs.map fun _ => n := by
  induction cs with
  | nil => rfl
  | cons c cs ih => simp only [List.map_cons, ih]

lemma map_snd_mapconst (n : Nat) (cs : List Bytes) :
    ((cs.map fun c => ((n : Nat), c)).map Prod.snd) = cs := by
  induction cs with
  | nil => rfl
  | cons c cs ih => simp only [List.map_cons, ih]

lemma foldl_max_mapconst (n : Nat) :
    ∀ (cs : List Bytes) (a : Nat),
      ((cs.map fun _ => n).foldl Nat.max a) = if cs = [] then a else Nat.max a n := by
  intro cs
  induction cs with
  | nil => intro a; simp
  | cons c cs ih =>
    intro a
    simp only [List.map_cons, List.foldl_cons, if_neg (List.cons_ne_nil c cs)]
    rw [ih]
    by_cases h : cs = []
    · simp [h]
    · rw [if_neg h]
      show max (max a n) n = max a n
      rw [max_assoc, max_self]

lemma filter_beq_same (n : Nat) (cs : List Bytes) :
    ((cs.map fun c => ((n : Nat), c)).filter fun p => p.1 == n) = cs.map fun c => (n, c) := by
  induction cs with
  | nil => rfl
  | cons c cs ih => simp [List.filter_cons, ih]

lemma filter_beq_ne (m n : Nat) (h : m ≠ n) (cs : List Bytes) :
    ((cs.map fun c => ((m : Nat), c)).filter fun p => p.1 == n) = [] := by
  induction cs with
  | nil => rfl
  | cons c cs ih => simp [List.filter_cons, ih, h]

lemma latestOf_nil : latestOf [] = none := rfl

lemma latestOf_single (n : Nat) (cs : List Bytes) (hcs : cs ≠ []) :
    latestOf (cs.map fun c => packH n ++ c) = some cs.flatten := by
  unfold latestOf
  rw [filterMap_parse]
  have hne : (cs.map fun c => ((n : Nat), c)) ≠ [] := by
    intro h
    exact hcs (List.map_eq_nil_iff.mp h)
  rw [if_neg hne, map_fst_mapconst, foldl_max_mapconst, if_neg hcs]
  have hz : Nat.max 0 n = n := by simp
  rw [hz, filter_beq_same, map_snd_mapconst]

lemma latestOf_two (n1 n2 : Nat) (c1s c2s : List Bytes) (h12 : n1 < n2) (h2 : c2s ≠ []) :
    latestOf ((c1s.map fun c => packH n1 ++ c) ++ (c2s.map fun c => packH n2 ++ c)) =
      some c2s.flatten := by
  unfold latestOf
  rw [List.filterMap_append, filterMap_parse, filterMap_parse]
  have hne : (c1s.map fun c => ((n1 : Nat), c)) ++ (c2s.map fun c => ((n2 : Nat), c)) ≠ [] := by
    intro h
    exact h2 (List.map_eq_nil_iff.mp (List.append_eq_nil.mp h).2)
  rw [if_neg hne]
  have hv : (((c1s.map fun c => ((n1 : Nat), c)) ++
      (c2s.map fun c => ((n2 : Nat), c))).map Prod.fst).foldl Nat.max 0 = n2 := by
    rw [List.map_append, map_fst_mapconst, map_fst_mapconst, List.foldl_append,
      foldl_max_mapconst, foldl_max_mapconst, if_neg h2]
    by_cases h1 : c1s = []
    · rw [if_pos h1]; simp
    · rw [if_neg h1]
      have hz : Nat.max 0 n1 = n1 := by simp
      rw [hz]
      show max n1 n2 = n2
      exact max_eq_right (Nat.le_of_lt h12)
  rw [hv, List.filter_append, filter_beq_ne n1 n2 (Nat.ne_of_lt h12), filter_beq_same,
    List.nil_append, map_snd_mapconst]

lemma fetchLatest_empty (st : Store) (key : Bytes) (hst : st key = []) :
    fetchLatest st key = none := by
  unfold fetchLatest
  rw [hst]
  rfl

lemma fetch_single (M n : Nat) (st : Store) (key data : Bytes)
    (h4 : 4 ≤ M) (hd : data ≠ []) (hst : st key = []) :
    fetchLatest (storeAppend st key (entriesOf M n data)) key = some data := by
  unfold fetchLatest
  rw [storeAppend_key, hst, List.nil_append]
  unfold entriesOf
  rw [latestOf_single n _ (chunkList_ne_nil (M - 3) data (by omega) hd),
    chunkList_flatten (M - 3) (by omega) data]

/-! ## Claim theorems -/

/-- C1 (amended): for every nonempty byte value and every version below
2^16 (the width of the packed version field), publishing under a key with
no prior entries via the chunked publish operation and then reconstructing
the latest value for that key returns exactly the published value. -/
theorem publish_fetchLatest_roundtrip (M n : Nat) (data : Bytes) (st : Store) (key : Bytes)
    (h4 : 4 ≤ M) (hn : n < 65536) (hd : data ≠ []) (hst : st key = []) :
    publish_to_DHT M st key data n = Except.ok (storeAppend st key (entriesOf M n data)) ∧
    fetchLatest (storeAppend st key (entriesOf M n data)) key = some data :=
  ⟨publish_eval M n st key data h4 hn, fetch_single M n st key data h4 hd hst⟩

/-- C1 witness: the round trip at MAX_ENTRY_SIZE 50, version 9, value
[1, 2] under key [0] in the empty store. -/
theorem publish_fetchLatest_roundtrip_instance :
    fetchLatest (storeAppend emptyStore [0] (entriesOf 50 9 [1, 2])) [0] = some [1, 2] :=
  (publish_fetchLatest_roundtrip 50 9 [1, 2] emptyStore [0] (by decide) (by decide)
    (by decide) rfl).2

/-- C1 counterexample: publishing the empty value succeeds but writes no
chunks, so reconstruction afterwards returns absent, not the empty value:
the claim fails for the empty byte value. -/
theorem publish_empty_value_no_roundtrip :
    publish_to_DHT 50 emptyStore [0] [] 7 = Except.ok emptyStore ∧
    fetchLatest emptyStore [0] = none ∧ (none : Option Bytes) ≠ some [] :=
  ⟨rfl, rfl, by decide⟩

/-- C2 (amended): on a key with no prior entries, publishing one value at
a lower version and then a nonempty second value at a numerically higher
version, both below 2^16, makes reconstruction return the second value
and, when the two values differ, never the first. -/
theorem fetchLatest_latest_wins (M n1 n2 : Nat) (v1 v2 : Bytes) (st : Store) (key : Bytes)
    (h4 : 4 ≤ M) (h12 : n1 < n2) (hn2 : n2 < 65536) (hv2 : v2 ≠ []) (hst : st key = []) :
    thenPublish (publish_to_DHT M st key v1 n1) M key v2 n2 =
      Except.ok (storeAppend st key (entriesOf M n1 v1 ++ entriesOf M n2 v2)) ∧
    fetchLatest (storeAppend st key (entriesOf M n1 v1 ++ entriesOf M n2 v2)) key = some v2 ∧
    (v1 ≠ v2 →
      fetchLatest (storeAppend st key (entriesOf M n1 v1 ++ entriesOf M n2 v2)) key ≠
        some v1) := by
  have hn1 : n1 < 65536 := Nat.lt_trans h12 hn2
  have hfetch : fetchLatest (storeAppend st key (entriesOf M n1 v1 ++ entriesOf M n2 v2)) key =
      some v2 := by
    unfold fetchLatest
    rw [storeAppend_key, hst, List.nil_append]
    unfold entriesOf
    rw [latestOf_two n1 n2 _ _ h12 (chunkList_ne_nil (M - 3) v2 (by omega) hv2),
      chunkList_flatten (M - 3) (by omega) v2]
  refine ⟨?_, hfetch, ?_⟩
  · rw [publish_eval M n1 st key v1 h4 hn1]
    show publish_to_DHT M (storeAppend st key (entriesOf M n1 v1)) key v2 n2 = _
    rw [publish_eval M n2 _ key v2 h4 hn2, storeAppend_append]
  · intro hne
    rw [hfetch]
    intro heq
    exact hne (Option.some.inj heq).symm

/-- C2 witness: versions 100 then 200 with values [1] then [2] under key
[0]; reconstruction returns [2]. -/
theorem fetchLatest_latest_wins_instance :
    fetchLatest (storeAppend emptyStore [0] (entriesOf 50 100 [1] ++ entriesOf 50 200 [2]))
      [0] = some [2] :=
  (fetchLatest_latest_wins 50 100 200 [1] [2] emptyStore [0] (by decide) (by decide)
    (by decide) (by decide) rfl).2.1

/-- C2 counterexample: publishing [1] at version 100 and then the empty
value [] at the higher version 200 stores no chunk for version 200, so
reconstruction returns [1] — the value published at the lower version —
although the two values are distinct. -/
theorem latest_wins_fails_for_empty_newer_value :
    fetchAfter (thenPublish (publish_to_DHT 50 emptyStore [0] [1] 100) 50 [0] [] 200) [0] =
      Except.ok (some [1]) ∧ ([] : Bytes) ≠ [1] :=
  ⟨rfl, by decide⟩

/-- C3: on a key with no prior entries, publishing a nonempty value
through the idempotent-publish guard and then invoking the guard a second
time with the byte-identical value writes no new chunks — the second call
returns the store of the first call unchanged, so the raw chunk count
under the key is the same after both calls. -/
theorem publishIfChanged_idempotent (M n1 n2 : Nat) (v : Bytes) (st : Store) (key : Bytes)
    (h4 : 4 ≤ M) (hn : n1 < 65536) (hv : v ≠ []) (hst : st key = []) :
    publishIfChanged M st key v n1 = Except.ok (storeAppend st key (entriesOf M n1 v)) ∧
    publishIfChanged M (storeAppend st key (entriesOf M n1 v)) key v n2 =
      Except.ok (storeAppend st key (entriesOf M n1 v)) := by
  constructor
  · unfold publishIfChanged
    rw [fetchLatest_empty st key hst, if_neg (by simp : ¬ (none : Option Bytes) = some v)]
    exact publish_eval M n1 st key v h4 hn
  · unfold publishIfChanged
    rw [if_pos (fetch_single M n1 st key v h4 hv hst)]

/-- C3 witness: the second guarded publish of [9] under key [3] returns
the store produced by the first one. -/
theorem publishIfChanged_idempotent_instance :
    publishIfChanged 50 (storeAppend emptyStore [3] (entriesOf 50 11 [9])) [3] [9] 12 =
      Except.ok (storeAppend emptyStore [3] (entriesOf 50 11 [9])) :=
  (publishIfChanged_idempotent 50 11 12 [9] emptyStore [3] (by decide) (by decide)
    (by decide) rfl).2

/-- C5 (amended): each raw entry written by the publish operation is the
2-byte packed version followed directly by the value slice — there is no
reserved/continuation byte — and the entries are appended to the store in
slice order; the slices step by MAX_ENTRY_SIZE - 3. -/
theorem publish_entry_layout (M n : Nat) (data : Bytes) (st : Store) (key : Bytes)
    (h4 : 4 ≤ M) (hn : n < 65536) :
    publish_to_DHT M st key data n = Except.ok (storeAppend st key (entriesOf M n data)) ∧
    entriesOf M n data = (chunkList (M - 3) data).map fun c => packH n ++ c :=
  ⟨publish_eval M n st key data h4 hn, rfl⟩

/-- C5 witness: publishing [9, 9, 9] at version 1 appends exactly the
2-byte-header entries. -/
theorem publish_entry_layout_instance :
    publish_to_DHT 50 emptyStore [2] [9, 9, 9] 1 =
      Except.ok (storeAppend emptyStore [2] (entriesOf 50 1 [9, 9, 9])) :=
  (publish_entry_layout 50 1 [9, 9, 9] emptyStore [2] (by decide) (by decide)).1

/-- C5 counterexample: publishing the single byte [7] at version 4536
stores the entry [184, 17, 7] of length 3 — the packed version [184, 17]
followed immediately by the slice [7].  Under the claimed layout the entry
would be a 3-byte header plus the nonempty slice, of length at least 4;
equivalently the bytes after the claimed 3-byte header are empty instead
of the slice [7]. -/
theorem publish_entry_has_no_reserved_byte :
    storeEntries (publish_to_DHT 50 emptyStore [0] [7] 4536) [0] =
      Except.ok [[184, 17, 7]] ∧
    chunkList 47 [7] = [[7]] ∧
    ([184, 17, 7] : Bytes).length = 3 ∧
    List.drop 3 ([184, 17, 7] : Bytes) = [] ∧
    ([7] : Bytes) ≠ [] :=
  ⟨rfl, rfl, rfl, rfl, by decide⟩

/-- C6: with MAX_ENTRY_SIZE 50 and the 2-byte-version header, a 120-byte
value is written as exactly ceil(120/47) = 3 raw entries, each of length
at most 50, and reconstruction afterwards returns the original 120 bytes
exactly; the entries carry the consecutive 47-byte slices of the value,
the final one shorter. -/
theorem publish_scenario_120_bytes (n : Nat) (data : Bytes) (st : Store) (key : Bytes)
    (hd : data.length = 120) (hn : n < 65536) (hst : st key = []) :
    publish_to_DHT 50 st key data n = Except.ok (storeAppend st key (entriesOf 50 n data)) ∧
    (entriesOf 50 n data).length = 3 ∧
    (∀ e ∈ entriesOf 50 n data, e.length ≤ 50) ∧
    fetchLatest (storeAppend st key (entriesOf 50 n data)) key = some data := by
  have hd0 : data ≠ [] := by
    intro h
    subst h
    simp at hd
  refine ⟨publish_eval 50 n st key data (by omega) hn, ?_,
    entriesOf_bound 50 n data (by omega),
    fetch_single 50 n st key data (by omega) hd0 hst⟩
  unfold entriesOf
  rw [List.length_map, chunkList_length (50 - 3) (by omega) data, hd]

/-- C6 witness: a concrete 120-byte value is written as 3 entries and
reconstructed intact. -/
theorem publish_scenario_120_bytes_instance :
    (entriesOf 50 4536 (List.replicate 120 3)).length = 3 ∧
    fetchLatest (storeAppend emptyStore [1] (entriesOf 50 4536 (List.replicate 120 3)))
      [1] = some (List.replicate 120 3) :=
  ⟨(publish_scenario_120_bytes 4536 (List.replicate 120 3) emptyStore [1] (by simp)
      (by decide) rfl).2.1,
    (publish_scenario_120_bytes 4536 (List.replicate 120 3) emptyStore [1] (by simp)
      (by decide) rfl).2.2.2⟩

/-- C7: every raw entry produced by publish has length at most
MAX_ENTRY_SIZE; an entry exceeding MAX_ENTRY_SIZE is always rejected by
put with EntryTooLarge; and publish itself never reaches that error
branch — it returns successfully for every value and in-range version. -/
theorem put_bound_invariant (M n : Nat) (data : Bytes) (st : Store) (key : Bytes)
    (h4 : 4 ≤ M) (hn : n < 65536) :
    (∀ e ∈ entriesOf M n data, e.length ≤ M) ∧
    (∀ e : Bytes, M < e.length → put M st key e = Except.error DHTError.entryTooLarge) ∧
    publish_to_DHT M st key data n = Except.ok (storeAppend st key (entriesOf M n data)) := by
  refine ⟨entriesOf_bound M n data h4, ?_, publish_eval M n st key data h4 hn⟩
  intro e he
  unfold put
  rw [if_pos he]

/-- C7 witness: a 51-byte entry is rejected by put at MAX_ENTRY_SIZE 50. -/
theorem put_bound_invariant_instance :
    put 50 emptyStore [0] (List.replicate 51 0) = Except.error DHTError.entryTooLarge :=
  (put_bound_invariant 50 0 [1] emptyStore [0] (by decide) (by decide)).2.1
    (List.replicate 51 0) (by decide)

/-- C10: publishing the empty value at an in-range version writes zero
chunks — the publish call succeeds and returns the store unchanged — and
on a key with no prior entries, reconstruction yields the absent result. -/
theorem publish_empty_writes_nothing (M n : Nat) (st : Store) (key : Bytes)
    (h4 : 4 ≤ M) (hn : n < 65536) :
    publish_to_DHT M st key [] n = Except.ok st ∧
    entriesOf M n [] = [] ∧
    (st key = [] → fetchLatest st key = none) := by
  have he : entriesOf M n [] = [] := by
    unfold entriesOf
    rw [chunkList_nil]
    rfl
  refine ⟨?_, he, ?_⟩
  · rw [publish_eval M n st key [] h4 hn, he, storeAppend_nil]
  · intro h
    exact fetchLatest_empty st key h

/-- C10 witness: publishing the empty value at version 9 under key [4]
leaves the empty store unchanged. -/
theorem publish_empty_writes_nothing_instance :
    publish_to_DHT 50 emptyStore [4] [] 9 = Except.ok emptyStore :=
  (publish_empty_writes_nothing 50 9 emptyStore [4] (by decide) (by decide)).1

lemma stepClock_le (c : Nat) (op : ClockOp) : c ≤ stepClock c op := by
  cases op with
  | claimOp =>
    show c ≤ update_global_time c (c + 1)
    unfold update_global_time update_clock
    split
    · exact le_max_left c (c + 1)
    · exact Nat.le_refl c
  | updateOp x =>
    show c ≤ update_global_time c x
    unfold update_global_time update_clock
    split
    · exact le_max_left c x
    · exact Nat.le_refl c

lemma scanl_stepClock_chain (c : Nat) (ops : List ClockOp) :
    List.Chain' (fun a b => a ≤ b) (List.scanl stepClock c ops) := by
  induction ops generalizing c with
  | nil => simp
  | cons op ops ih =>
    rw [List.scanl_cons, List.singleton_append]
    refine List.chain'_cons'.mpr ⟨?_, ih (stepClock c op)⟩
    intro y hy
    have hh : (List.scanl stepClock (stepClock c op) ops).head? = some (stepClock c op) := by
      cases ops <;> simp [List.scanl_nil, List.scanl_cons]
    rw [hh] at hy
    rw [← Option.mem_some_iff.mp hy]
    exact stepClock_le c op

/-- C4 (amended): on_packet contains no exception handler, so a failure
of split_key_data (a packet whose bytes cannot be split) or of the
key-parsing capability propagates to the caller of on_packet instead of
being dropped there. -/
theorem on_packet_propagates_errors
    (split_key_data : Bytes → Except PacketError (Bytes × Bytes))
    (key_from_public_bin : Bytes → Except PacketError Nat)
    (source_address : Nat) (data : Bytes) :
    (∀ e, split_key_data data = Except.error e →
      on_packet split_key_data key_from_public_bin (source_address, data) =
        Except.error e) ∧
    (∀ kb rest e, split_key_data data = Except.ok (kb, rest) →
      key_from_public_bin kb = Except.error e →
      on_packet split_key_data key_from_public_bin (source_address, data) =
        Except.error e) := by
  constructor
  · intro e he
    simp only [on_packet, he]
  · intro kb rest e h1 h2
    simp only [on_packet, h1, h2]

/-- C4 witness: a key-parsing failure on a splittable packet propagates
out of on_packet as InvalidKey. -/
theorem on_packet_propagates_errors_instance :
    on_packet headSplit rejectKey (1, [5, 6]) = Except.error PacketError.invalidKey :=
  (on_packet_propagates_errors headSplit rejectKey 1 [5, 6]).2 [5] [6]
    PacketError.invalidKey rfl rfl

/-- C4 counterexample: with a split rule that rejects the packet,
on_packet returns the MalformedPacket error to its caller — the packet is
not silently dropped inside on_packet as the claim states. -/
theorem on_packet_raises_on_malformed :
    on_packet rejectSplit acceptKey (3, [1, 2]) = Except.error PacketError.malformedPacket :=
  rfl

/-- C8: over any finite sequence of claim_global_time and
update_global_time operations from any starting state, the trace of clock
values is non-decreasing; the value returned by claim_global_time is the
new clock value; and immediately after update_global_time(x) the clock is
at least x. -/
theorem clock_monotone (c : Nat) (ops : List ClockOp) :
    List.Chain' (fun a b => a ≤ b) (List.scanl stepClock c ops) ∧
    (∀ d x, x ≤ stepClock d (ClockOp.updateOp x)) ∧
    (∀ d, (claim_global_time d).2 = (claim_global_time d).1 ∧
      d < (claim_global_time d).1) := by
  refine ⟨scanl_stepClock_chain c ops, ?_, ?_⟩
  · intro d x
    show x ≤ update_global_time d x
    unfold update_global_time update_clock
    split
    · exact le_max_right d x
    · omega
  · intro d
    refine ⟨rfl, ?_⟩
    show d < update_global_time d (d + 1)
    unfold update_global_time update_clock
    split
    · exact Nat.lt_of_lt_of_le (Nat.lt_succ_self d) (le_max_right d (d + 1))
    · omega

/-- C9: update_global_time computes max of the current clock and the
remote value — it leaves the clock unchanged when the remote value is not
larger, and it is idempotent; as a total function it never fails. -/
theorem update_global_time_max (c x : Nat) :
    update_global_time c x = max c x ∧
    (x ≤ c → update_global_time c x = c) ∧
    update_global_time (update_global_time c x) x = update_global_time c x := by
  have h1 : update_global_time c x = max c x := by
    unfold update_global_time update_clock
    split
    · rfl
    · exact (max_eq_left (by omega)).symm
  refine ⟨h1, ?_, ?_⟩
  · intro hxc
    rw [h1]
    exact max_eq_left hxc
  · rw [h1]
    show update_global_time (max c x) x = max c x
    unfold update_global_time update_clock
    rw [if_neg (not_lt.mpr (le_max_right c x))]

/-- C9 witness: observing a smaller remote value leaves the clock at 7. -/
theorem update_global_time_max_instance : update_global_time 7 3 = 7 :=
  (update_global_time_max 7 3).2.1 (by decide)
